import Mathlib

/-!
Verification development for the `embrace` reactive UI composition library.

The library composes UI parts (Node / Grid / Knot / Composite / List / Union)
into trees, resolves them against reactive state streams (`UI.squash` /
`UI.mount`), rewrites trees structurally (`UI.patch` / `changeDescendant`,
`UI.promap`), and mirrors the tree structure in the Flow algebra
(`Flow.composeKnot`, `Flow.composeUnion`, `Flow.animatingFlow`).

Shallow embedding conventions used throughout this file:

* An rxjs `Observable` is embedded as the finite trace (Lean `List`) of the
  values it emits, in emission order.  The rxjs operators used by the
  library (`filter`, `map`, `scan`, `distinctUntilChanged`, `combineLatest`,
  `switchMap`) are embedded as the corresponding trace transformers.
* A JavaScript `Map` / record object is embedded as an association list in
  insertion order; `Map.get` / property access is `lookupKey`.
* JavaScript object identity (the `===` used by the bare
  `distinctUntilChanged()` in `rx_map.ts`) is embedded by tagging each
  incoming snapshot with a `Nat` reference id; reference equality is
  equality of the id.
* An rxjs `BehaviorSubject` (the per-key cell of `rx_map.ts` and the group
  subject of `rx_split_by.ts`) is embedded by the full list of values it has
  carried, seed first; a subscriber arriving at any point replays the last
  element of that list and then receives the subsequent ones.
* Action values are the inductive `Val`: opaque payloads (`Val.base`,
  `Val.str`) and the `\x7bkey, action\x7d` wrappers produced by
  `makeNamespacedNode` (`Val.keyed`).
-/

/-- Universal value domain for states and actions flowing through the
embedded program.  `keyed k v` is the JS object `\x7bkey: k, action: v\x7d`
built by `makeNamespacedNode` / read back by the Flow algebra. -/
inductive Val : Type where
  | base : Nat → Val
  | str : String → Val
  | keyed : String → Val → Val
deriving DecidableEq, Repr

/-- A composed action as consumed by the Flow algebra: the JS object
`\x7bkey, action\x7d` (type `KeyedAction` in `src/internal`). -/
structure KeyedAction : Type where
  key : String
  action : Val
deriving DecidableEq, Repr

/-- Association-list lookup: JS `Map.get` / record property access. -/
def lookupKey {κ α : Type} [DecidableEq κ] : List (κ × α) → κ → Option α
  | [], _ => none
  | (k, v) :: rest, key => if k = key then some v else lookupKey rest key

/-- Helper for `distinctUntilChanged`: `prev` is the last emitted value. -/
def dUCgo {α : Type} (eq : α → α → Bool) : α → List α → List α
  | _, [] => []
  | prev, y :: ys => if eq prev y then dUCgo eq prev ys else y :: dUCgo eq y ys

/-- rxjs `distinctUntilChanged(eq)` on an emission trace: a value is emitted
unless `eq` relates it to the most recently emitted value. -/
def distinctUntilChanged {α : Type} (eq : α → α → Bool) : List α → List α
  | [] => []
  | x :: xs => x :: dUCgo eq x xs

/-! ## Reactive Map Projector — `src/internal/rx_map.ts`

`fromFoldable` pipes the incoming snapshot stream through
`distinctUntilChanged()` (reference equality), then `scan`s it into a
`Map<K, BehaviorSubject<A>>`, reusing the previous iteration's subject for a
persisting key and seeding a fresh subject for a new key, and finally
filters the outer emissions through `distinctUntilChanged` with the
key-only `Eq` instance `getEqByValue(Eq.fromEquals(() => true))`. -/

/-- The heap of `BehaviorSubject` cells allocated by `fromFoldable`'s scan:
`hist c` is the full list of values cell `c` has carried (seed first) and
`fresh` is the next unallocated cell id. -/
structure CellStore : Type where
  hist : Nat → List Val
  fresh : Nat

/-- The empty cell heap. -/
def CellStore.empty : CellStore := ⟨fun _ => [], 0⟩

/-- `existing.next(value)`: push a value into an existing cell. -/
def CellStore.push (st : CellStore) (c : Nat) (v : Val) : CellStore :=
  ⟨Function.update st.hist c (st.hist c ++ [v]), st.fresh⟩

/-- `new BehaviorSubject(value)`: allocate a fresh cell seeded with `v`. -/
def CellStore.newCell (st : CellStore) (v : Val) : CellStore :=
  ⟨Function.update st.hist st.fresh [v], st.fresh + 1⟩

/-- One entry of `foldable.reduceWithIndex` inside `fromFoldable`'s scan
(rx_map.ts lines 46-59): if `oldState` has the key, reuse the existing cell
and `next` the new value into it, otherwise allocate a seeded cell. -/
def fromFoldableEntry {K : Type} [DecidableEq K] (old : List (K × Nat))
    (acc : List (K × Nat) × CellStore) (kv : K × Val) : List (K × Nat) × CellStore :=
  match lookupKey old kv.1 with
  | some c => (acc.1 ++ [(kv.1, c)], acc.2.push c kv.2)
  | none => (acc.1 ++ [(kv.1, acc.2.fresh)], acc.2.newCell kv.2)

/-- One step of `fromFoldable`'s `Rx.scan`: rebuild the key → cell map from
the incoming collection, starting from an empty result map. -/
def fromFoldableStep {K : Type} [DecidableEq K] (old : List (K × Nat)) (store : CellStore)
    (coll : List (K × Val)) : List (K × Nat) × CellStore :=
  coll.foldl (fromFoldableEntry old) ([], store)

/-- The `Rx.scan` stage of `fromFoldable` on a whole trace of incoming
collections: emits each successive key → cell map (the seed map is not
emitted, matching rxjs `scan`), threading the cell heap. -/
def fromFoldableScan {K : Type} [DecidableEq K] (old : List (K × Nat)) (store : CellStore) :
    List (List (K × Val)) → List (List (K × Nat)) × CellStore
  | [] => ([], store)
  | coll :: rest =>
    let s := fromFoldableStep old store coll
    let t := fromFoldableScan s.1 s.2 rest
    (s.1 :: t.1, t.2)

/-- Key-set comparison underlying `getEqByValue(Eq.fromEquals(() => true))`
(rx_map.ts lines 71-93): sizes are equal and every key of `a` is present in
`b`; the value comparison is constantly true so only keys matter. -/
def sameKeys {K : Type} [DecidableEq K] (ka kb : List K) : Bool :=
  ka.length == kb.length && ka.all fun k => kb.any fun k2 => decide (k2 = k)

/-- `getEqByValue(Eq.fromEquals(() => true)).equals` on two key → cell maps.
The `a === b` early exit of the source is subsumed: structurally equal maps
satisfy the key check, and the scan emits a freshly allocated `Map` each
step so reference-equal arguments do not occur. -/
def getEqByValueKeys {K : Type} [DecidableEq K] (a b : List (K × Nat)) : Bool :=
  sameKeys (a.map Prod.fst) (b.map Prod.fst)

/-- The scan-plus-outer-gate tail of the `fromFoldable` pipeline (everything
after the reference-equality dedup): trace of outer map emissions. -/
def rxMapOuter {K : Type} [DecidableEq K] (colls : List (List (K × Val))) : List (List (K × Nat)) :=
  distinctUntilChanged getEqByValueKeys (fromFoldableScan [] CellStore.empty colls).1

/-- Full `fromFoldable` pipeline on a trace of (reference id, collection)
snapshots: `distinctUntilChanged()` by reference id, `scan` into key → cell
maps, `distinctUntilChanged` by key set.  Returns the outer emission trace
and the final cell heap (per-key sub-stream histories). -/
def fromFoldable {K : Type} [DecidableEq K] (inputs : List (Nat × List (K × Val))) :
    List (List (K × Nat)) × CellStore :=
  let deduped := distinctUntilChanged (fun a b => a.1 == b.1) inputs
  let scanned := fromFoldableScan [] CellStore.empty (deduped.map Prod.snd)
  (distinctUntilChanged getEqByValueKeys scanned.1, scanned.2)

/-! ## Discriminated-Union Splitter — `src/internal/rx_split_by.ts`

`SplitBySubscriber` keeps at most one open group (a `BehaviorSubject` seeded
with the value that opened it).  `_next` compares the incoming value's
discriminant with the current group's key: on a change it completes the
current group and opens a new one (pushing a `GroupedObservable` to the
outer subscriber — modelled as appending to `groups`); on the same key it
forwards the value into the group's subject unless that subject has been
closed (unsubscribed), in which case the value is silently dropped. -/

/-- One group produced by `splitBy`: its discriminant key, the values its
`BehaviorSubject` has carried (seed first), whether `complete()` has been
called on it, and whether it has been unsubscribed (`closed`). -/
structure SplitGroup (K : Type) : Type where
  key : K
  emissions : List Val
  completed : Bool
  closed : Bool
deriving DecidableEq, Repr

/-- State of a `SplitBySubscriber`: the `_currentGroup` key (if any) and
all groups pushed to the outer subscriber so far, in order.  The current
group, when present, is the last element of `groups`. -/
structure SplitState (K : Type) : Type where
  currentKey : Option K
  groups : List (SplitGroup K)
deriving DecidableEq, Repr

/-- `_createGroup` (rx_split_by.ts lines 83-88): open a `BehaviorSubject`
seeded with `v`, make it current, and emit the group to the destination. -/
def splitCreateGroup {K : Type} (st : SplitState K) (k : K) (v : Val) : SplitState K :=
  { currentKey := some k, groups := st.groups ++ [⟨k, [v], false, false⟩] }

/-- Apply `f` to the last group (the current one). -/
def modifyLastGroup {K : Type} (f : SplitGroup K → SplitGroup K) :
    List (SplitGroup K) → List (SplitGroup K)
  | [] => []
  | [g] => [f g]
  | g :: gs => g :: modifyLastGroup f gs

/-- Whether the current (last) group's subject is closed. -/
def lastGroupClosed {K : Type} (gs : List (SplitGroup K)) : Bool :=
  ((gs.getLast?).map SplitGroup.closed).getD false

/-- `SplitBySubscriber._next` (rx_split_by.ts lines 62-81). -/
def splitNext {K : Type} [DecidableEq K] (st : SplitState K) (k : K) (v : Val) : SplitState K :=
  match st.currentKey with
  | none => splitCreateGroup st k v
  | some ck =>
    if ck ≠ k then
      splitCreateGroup
        { currentKey := none,
          groups := modifyLastGroup (fun g => { g with completed := true }) st.groups } k v
    else if ¬ lastGroupClosed st.groups then
      { st with groups := modifyLastGroup (fun g => { g with emissions := g.emissions ++ [v] }) st.groups }
    else st

/-- Run the splitter over an upstream trace of (discriminant, value) pairs
starting from the initial subscriber state (`_currentGroup = none`). -/
def runSplit {K : Type} [DecidableEq K] (upstream : List (K × Val)) : SplitState K :=
  upstream.foldl (fun st kv => splitNext st kv.1 kv.2) ⟨none, []⟩

/-! ## UI Part trees — `src/ui.tsx`

A `UI.Part` is one of five variants.  `Node` and `Grid` are render
functions from mount props (slot children, a state observable, a notify
sink) to a renderable; the renderable type is kept abstract (`R`), so
equality of parts is behavioural equality.  State observables are traces of
`Val`; the notify sink is purified as a function returning the composed
action value that the mount-point channel receives. -/

/-- Mount props handed to a Node/Grid render function (`MountProps` in
ui.tsx): the slot children record, the state observable's trace, and the
notify sink (purified: it returns the value delivered to the root
channel). -/
structure NProps (R : Type) : Type where
  children : List (String × R)
  state : List Val
  notify : Val → Val

/-- The five-variant `UI` part type (ui.tsx): `node` and the grid component
of `knot`/`composite` are render functions; `knot` pairs a grid with a
children record, `composite` wraps a single child, `list` pairs an opaque
foldable-strategy reference (a `Nat` tag) with the per-element template,
and `union` pairs a discriminant tag name with a member record. -/
inductive UIPart (R : Type) : Type where
  | node : (NProps R → R) → UIPart R
  | knot : (NProps R → R) → List (String × UIPart R) → UIPart R
  | composite : (NProps R → R) → UIPart R → UIPart R
  | list : Nat → UIPart R → UIPart R
  | union : String → List (String × UIPart R) → UIPart R

/-- The notify transformation of `UI.promap` / `UI.mapAction` /
`UI.contramapState` on a render function (ui.tsx lines 938-944): the
wrapped function sees the same slot children, the state trace mapped
through the contravariant adapter, and the notify sink pre-composed with
the covariant adapter (`R.local(mapAction)`). -/
def promapNodeFn {R : Type} (contramapState : Val → Val) (mapAction : Val → Val)
    (n : NProps R → R) : NProps R → R :=
  fun props =>
    n { children := props.children,
        notify := fun a => props.notify (mapAction a),
        state := props.state.map contramapState }

/-- `UI.promap` (ui.tsx lines 922-945): a Knot keeps its children record
untouched and promaps only its grid; a List keeps its foldable and promaps
the per-element template; a bare render function (Node/Grid) is wrapped
directly.  A Composite or Union reaching the final branch would be invoked
as a function by the source and throw a `TypeError`; this is `none`. -/
def promap {R : Type} : UIPart R → (Val → Val) → (Val → Val) → Option (UIPart R)
  | .knot grid cs, f, g => some (.knot (promapNodeFn f g grid) cs)
  | .list fd of, f, g => (promap of f g).map (fun of2 => .list fd of2)
  | .node n, f, g => some (.node (promapNodeFn f g n))
  | .composite _ _, _, _ => none
  | .union _ _, _, _ => none

mutual
/-- `changeDescendant` (ui.tsx lines 1056-1092): with a non-empty path, a
Composite or List is traversed without consuming a path segment, a Knot or
Union consumes the head segment and rebuilds exactly that child/member via
the JS spread `\x7b...children, [head]: changeDescendant(...)\x7d`; in every
other case (empty path, or a Node) `f` is applied to the part itself. -/
def changeDescendant {R : Type} : UIPart R → List String → (UIPart R → UIPart R) → UIPart R
  | .composite g child, p :: ps, f => .composite g (changeDescendant child (p :: ps) f)
  | .knot g cs, head :: tail, f => .knot g (changeChildAt cs head tail f)
  | .list fd of, p :: ps, f => .list fd (changeDescendant of (p :: ps) f)
  | .union tag ms, head :: tail, f => .union tag (changeChildAt ms head tail f)
  | part, _, f => f part

/-- The JS spread update `\x7b...record, [head]: changeDescendant(record[head],
tail, f)\x7d`: the entry at `head` is rebuilt in place, all other entries are
kept as the identical sub-parts.  (With `head` absent the source would
dereference `undefined` and throw; the claims only concern present keys.) -/
def changeChildAt {R : Type} : List (String × UIPart R) → String → List String →
    (UIPart R → UIPart R) → List (String × UIPart R)
  | [], _, _, _ => []
  | (k, c) :: rest, head, tail, f =>
    if k = head then (k, changeDescendant c tail f) :: rest
    else (k, c) :: changeChildAt rest head tail f
end

/-- `UI.patch(...path)(f)` (ui.tsx lines 668-675): `changeDescendant` at the
given path. -/
def patch {R : Type} (path : List String) (f : UIPart R → UIPart R) (root : UIPart R) : UIPart R :=
  changeDescendant root path f

/-- The reserved root key.  Modelled from the spec: the constant `ROOT` of
`src/internal` (whose index module is not part of the sources at hand) is
the reserved key `'root'`; its value is pinned by the in-source types
(`Record<'root', Flow<...>>` in flow.ts's `KnotFlowComposition`) and the
`UI.mount` documentation (`key: 'root'`). -/
def ROOT : String := "root"

/-- The notify transformation performed by `makeNamespacedNode key node`
(ui.tsx lines 1045-1054): the wrapped node's emissions are delivered as
`\x7bkey, action\x7d` (via `UI.mapAction`, i.e. `promap` with the identity
state adapter). -/
def namespacedNotify (key : String) (notify : Val → Val) : Val → Val :=
  fun action => notify (.keyed key action)

/-- Address of an action-emitting site inside a part tree, mirroring how
`UI.squash` reaches it: `here` is a Node's own render function, `gridHere`
a Knot's own grid, `child`/`elem`/`member` descend into a Knot child, a
List element (by its runtime key) or a Union member, and `through` passes
through a Composite wrapper. -/
inductive Addr : Type where
  | here : Addr
  | gridHere : Addr
  | child : String → Addr → Addr
  | through : Addr → Addr
  | elem : String → Addr → Addr
  | member : String → Addr → Addr

mutual
/-- The notify sink that `UI.squash` (ui.tsx lines 810-914) binds to the
site at `addr` when the squashed part is mounted with root sink `n`:
a Node receives the incoming sink unchanged (final branch); a Composite's
child receives the mount point's sink unchanged (`notify: props.notify`,
line 823); a Knot's grid emits under the reserved root key (line 861) and a
Knot child / List element / Union member is wrapped by
`makeNamespacedNode` with its key (lines 845-853, 879-880, 899-903).
`none` when the address does not match the tree. -/
def squashNotify {R : Type} : UIPart R → Addr → (Val → Val) → Option (Val → Val)
  | .node _, .here, n => some n
  | .composite _ child, .through a, n => squashNotify child a n
  | .knot _ _, .gridHere, n => some (namespacedNotify ROOT n)
  | .knot _ cs, .child k a, n => squashNotifyAt cs k a (namespacedNotify k n)
  | .list _ of, .elem k a, n => squashNotify of a (namespacedNotify k n)
  | .union _ ms, .member k a, n => squashNotifyAt ms k a (namespacedNotify k n)
  | _, _, _ => none

/-- Record lookup fused with `squashNotify` (the `uiNode.children[key]` /
`uiNode.members[state.key]` access of the Knot and Union branches). -/
def squashNotifyAt {R : Type} : List (String × UIPart R) → String → Addr →
    (Val → Val) → Option (Val → Val)
  | [], _, _, _ => none
  | (k2, c) :: rest, k, a, n =>
    if k2 = k then squashNotify c a n else squashNotifyAt rest k a n
end

/-- The chain of keys along an address: the path from the mount point, with
a Knot's own grid contributing the reserved root key and a Composite
contributing nothing. -/
def addrKeys : Addr → List String
  | .here => []
  | .gridHere => [ROOT]
  | .child k a => k :: addrKeys a
  | .through a => addrKeys a
  | .elem k a => k :: addrKeys a
  | .member k a => k :: addrKeys a

/-- Nest a raw action value under a chain of keys, innermost key last:
the composed action `\x7bkey: k1, action: \x7bkey: k2, action: ... v\x7d\x7d`. -/
def nestKeys (ks : List String) (v : Val) : Val :=
  ks.foldr (fun k acc => .keyed k acc) v

/-! ## Flow algebra — `src/flow.ts`

A `Flow` maps an action trace to a state trace.  `composeKnot` demultiplexes
the incoming composed actions by child key and combine-latest-merges the
children's outputs; `composeUnion` routes the whole action stream into the
tag selector and `switchMap`s over its emissions, feeding the active
member's flow with that member's actions only and merging the tag value
into each emitted state.

Because the relative timing of the children's output emissions is not
determined by the traces alone, the combine-latest stage takes the
interleaved child-output event trace as its input. -/

/-- The action stream `composeKnot`/`composeUnion` feed to the flow at key
`k` (flow.ts lines 192-195 and 225-227):
`actions.pipe(Rx.filter(a => a.key === key), Rx.map(a => a.action))`. -/
def demux (k : String) (actions : List KeyedAction) : List Val :=
  (actions.filter fun a => a.key == k).map KeyedAction.action

/-- Latest value per source in the interleaved child-output event trace. -/
def latestVal (events : List (String × Val)) (k : String) : Option Val :=
  ((events.filter fun e => e.1 == k).getLast?).map Prod.snd

/-- The record combineLatest hands downstream once every child has a value:
each child's latest output under its own key.  The source builds it as
`[\x7bk1: s1\x7d, ..., \x7bkn: sn\x7d].reduce((a, v) => (\x7b...a, ...v\x7d))`
in the order of `Object.keys(flowComposition)`, which for distinct child
keys is exactly this association list. -/
def knotSnapshot (ks : List String) (events : List (String × Val)) : List (String × Val) :=
  ks.map fun k => (k, (latestVal events k).getD (.base 0))

/-- Helper for `composeKnotOut`: `seen` is the event history so far. -/
def composeKnotOutGo (ks : List String) : List (String × Val) → List (String × Val) →
    List (List (String × Val))
  | _, [] => []
  | seen, e :: rest =>
    let seen2 := seen ++ [e]
    (if ks.all fun k => (latestVal seen2 k).isSome then [knotSnapshot ks seen2] else []) ++
      composeKnotOutGo ks seen2 rest

/-- The output stage of `Flow.composeKnot` (flow.ts lines 188-199):
rxjs `combineLatest` over the children's output streams, followed by the
singleton-record merge.  `events` is the interleaved trace of the
children's state emissions `(child key, state value)`; an emission is
produced for each event once every key in `ks` has emitted at least once,
carrying every child's latest value under its own key. -/
def composeKnotOut (ks : List String) (events : List (String × Val)) :
    List (List (String × Val)) :=
  composeKnotOutGo ks [] events

/-- JS spread-update `\x7b...fs, [k]: v\x7d`: overwrite the field in place if
present, append it otherwise. -/
def setField (fs : List (String × Val)) (k : String) (v : Val) : List (String × Val) :=
  if fs.any fun p => p.1 == k then fs.map fun p => if p.1 == k then (k, v) else p
  else fs ++ [(k, v)]

/-- The argument `composeUnion` passes to the tag selector (flow.ts line
221: `kindSelector(actions)`): the whole incoming composed action stream,
unfiltered. -/
def composeUnionSelectorInput (actions : List KeyedAction) : List KeyedAction :=
  actions

/-- One inner subscription of `composeUnion`'s `switchMap` (flow.ts lines
222-231), live from one tag-selector emission to the next: the member flow
at the emitted key is applied to that member's demultiplexed actions, and
the tag field is spread into every state it emits
(`Rx.map(state => (\x7b...state, [tag]: key\x7d))`). -/
def composeUnionSegOut (tag : String) (flows : String → List Val → List (List (String × Val)))
    (k : String) (acts : List KeyedAction) : List (List (String × Val)) :=
  (flows k (demux k acts)).map fun s => setField s tag (.str k)

/-- `Flow.composeUnion`'s output over a segmented run: `segs` lists the tag
selector's emissions, each with the actions arriving before the next
selector emission.  rxjs `switchMap` tears down the current inner
subscription and starts a fresh one at every outer (selector) emission, so
the output is the concatenation of the per-segment runs. -/
def composeUnionOut (tag : String) (flows : String → List Val → List (List (String × Val)))
    (segs : List (String × List KeyedAction)) : List (List (String × Val)) :=
  segs.flatMap fun seg => composeUnionSegOut tag flows seg.1 seg.2

/-! ## Animation state machine — `src/flow.ts` (`animatingFlow`)

`collectAnimationState` is the scan step layered over the original flow's
state output: it consults the animation decision on (previous children
state, next children state) and rebuilds the keyed iteration record. -/

/-- fp-ts `These`: left, right, or both. -/
inductive AThese (α β : Type) : Type where
  | left : α → AThese α β
  | right : β → AThese α β
  | both : α → β → AThese α β
deriving DecidableEq, Repr

/-- fp-ts `These.getRight`. -/
def AThese.getRight {α β : Type} : AThese α β → Option β
  | .left _ => none
  | .right b => some b
  | .both _ b => some b

/-- fp-ts `These.getLeft`. -/
def AThese.getLeft {α β : Type} : AThese α β → Option α
  | .left a => some a
  | .right _ => none
  | .both a _ => some a

/-- One iteration's view (`AnimationView` in internal/animated.ts): the
root transition marker (`some` while a transition is pending, `none` once
settled) and the children state.  The transition type is `Out ⊕ Inn`:
`Sum.inl` marks the outgoing direction, `Sum.inr` the incoming one. -/
structure AnimView (Out Inn State : Type) : Type where
  root : Option (Out ⊕ Inn)
  children : State
deriving DecidableEq, Repr

/-- `collectAnimationState` (flow.ts lines 362-425): the `Rx.scan` step of
`animatingFlow`.  On a `none` decision the accumulated record is replaced
by the single current iteration, settled (`root := none`) with the new
children state.  Otherwise a fresh next iteration (`prevIteration + 1`) is
created carrying the decision's right component as a pending-in root, and
the current iteration is kept, re-rooted with the decision's left
component, only when both that component and a previous children state
exist.  Keys are listed in ascending numeric order, matching JS integer-key
iteration order. -/
def collectAnimationState {Out Inn State : Type}
    (shouldAnimate : Option State → State → Option (AThese Out Inn)) (prevIteration : Nat)
    (acc : List (Nat × AnimView Out Inn State)) (nextChildren : State) :
    List (Nat × AnimView Out Inn State) :=
  let prevAnimation := lookupKey acc prevIteration
  let prevChildren := prevAnimation.map AnimView.children
  match shouldAnimate prevChildren nextChildren with
  | none => [(prevIteration, ⟨none, nextChildren⟩)]
  | some transition =>
    let nextIteration := prevIteration + 1
    let nextEntry := (nextIteration, AnimView.mk (transition.getRight.map Sum.inr) nextChildren)
    match transition.getLeft, prevChildren with
    | some out, some pc => [(prevIteration, ⟨some (Sum.inl out), pc⟩), nextEntry]
    | some _, none => [nextEntry]
    | none, _ => [nextEntry]

/-- `UI.mount`'s action channel (ui.tsx lines 593-611): the root sink is
`i => action.next(i)`, which delivers the composed action value to the
Flow's input unchanged. -/
def mountNotify : Val → Val := fun v => v

/-! ## Helper lemmas -/

theorem lookupKey_mem {κ α : Type} [DecidableEq κ] :
    ∀ (l : List (κ × α)) (k : κ) (v : α), lookupKey l k = some v → (k, v) ∈ l := by
  intro l k v h
  induction l with
  | nil => simp [lookupKey] at h
  | cons p rest ih =>
    obtain ⟨k2, v2⟩ := p
    simp only [lookupKey] at h
    by_cases hk : k2 = k
    · subst hk
      simp at h
      subst h
      exact List.mem_cons_self _ _
    · simp [hk] at h
      exact List.mem_cons_of_mem _ (ih h)

theorem lookupKey_append_left {κ α : Type} [DecidableEq κ] :
    ∀ (l l2 : List (κ × α)) (k : κ), k ∉ l.map Prod.fst →
      lookupKey (l ++ l2) k = lookupKey l2 k := by
  intro l l2 k h
  induction l with
  | nil => rfl
  | cons p rest ih =>
    simp only [List.map_cons, List.mem_cons] at h
    push_neg at h
    simp only [List.cons_append, lookupKey]
    rw [if_neg (by simpa using Ne.symm h.1)]
    exact ih h.2

theorem promapNodeFn_id {R : Type} (n : NProps R → R) :
    promapNodeFn (fun v => v) (fun v => v) n = n := by
  funext props
  have h : props.state.map (fun v => v) = props.state := by simp
  simp only [promapNodeFn, h]

theorem promapNodeFn_comp {R : Type} (n : NProps R → R) (f1 g1 f2 g2 : Val → Val) :
    promapNodeFn f2 g2 (promapNodeFn f1 g1 n)
      = promapNodeFn (fun v => f1 (f2 v)) (fun v => g2 (g1 v)) n := by
  funext props
  simp only [promapNodeFn, List.map_map]
  rfl

theorem promap_id_eq {R : Type} :
    ∀ (p q : UIPart R), promap p (fun v => v) (fun v => v) = some q → q = p
  | .node n, q, h => by
    simp only [promap, promapNodeFn_id] at h
    exact (Option.some.inj h).symm
  | .knot g cs, q, h => by
    simp only [promap, promapNodeFn_id] at h
    exact (Option.some.inj h).symm
  | .list fd of, q, h => by
    simp only [promap] at h
    cases hof : promap of (fun v => v) (fun v => v) with
    | none => rw [hof] at h; simp at h
    | some q2 =>
      rw [hof] at h
      simp only [Option.map_some'] at h
      have h2 := promap_id_eq of q2 hof
      rw [← Option.some.inj h, h2]
  | .composite g c, q, h => by simp [promap] at h
  | .union t ms, q, h => by simp [promap] at h

theorem promap_comp_eq {R : Type} :
    ∀ (p q r : UIPart R) (f1 g1 f2 g2 : Val → Val),
      promap p f1 g1 = some q → promap q f2 g2 = some r →
      promap p (fun v => f1 (f2 v)) (fun v => g2 (g1 v)) = some r
  | .node n, q, r, f1, g1, f2, g2, h1, h2 => by
    simp only [promap] at h1
    rw [← Option.some.inj h1] at h2
    simp only [promap] at h2
    rw [← Option.some.inj h2]
    simp only [promap, promapNodeFn_comp]
  | .knot g cs, q, r, f1, g1, f2, g2, h1, h2 => by
    simp only [promap] at h1
    rw [← Option.some.inj h1] at h2
    simp only [promap] at h2
    rw [← Option.some.inj h2]
    simp only [promap, promapNodeFn_comp]
  | .list fd of, q, r, f1, g1, f2, g2, h1, h2 => by
    simp only [promap] at h1
    cases hof : promap of f1 g1 with
    | none => rw [hof] at h1; simp at h1
    | some q2 =>
      rw [hof] at h1
      simp only [Option.map_some'] at h1
      rw [← Option.some.inj h1] at h2
      simp only [promap] at h2
      cases hq2 : promap q2 f2 g2 with
      | none => rw [hq2] at h2; simp at h2
      | some r2 =>
        rw [hq2] at h2
        simp only [Option.map_some'] at h2
        rw [← Option.some.inj h2]
        simp only [promap]
        rw [promap_comp_eq of q2 r2 f1 g1 f2 g2 hof hq2]
        rfl
  | .composite g c, q, r, f1, g1, f2, g2, h1, h2 => by simp [promap] at h1
  | .union t ms, q, r, f1, g1, f2, g2, h1, h2 => by simp [promap] at h1

/-- C7: `promap` obeys the profunctor laws behaviourally — identity adapters
return the original part, composed adapter pairs equal a single `promap`
with the composed adapters (`f1 ∘ f2` on state, `g2 ∘ g1` on actions) — and
structurally a Knot's children record is left the identical object (only
the owning grid is wrapped) while a List keeps its foldable and transforms
only the per-element template. -/
theorem promap_profunctor_laws :
    (∀ (R : Type) (p q : UIPart R),
        promap p (fun v => v) (fun v => v) = some q → q = p) ∧
    (∀ (R : Type) (p q r : UIPart R) (f1 g1 f2 g2 : Val → Val),
        promap p f1 g1 = some q → promap q f2 g2 = some r →
        promap p (fun v => f1 (f2 v)) (fun v => g2 (g1 v)) = some r) ∧
    (∀ (R : Type) (grid : NProps R → R) (cs : List (String × UIPart R)) (f g : Val → Val),
        promap (UIPart.knot grid cs) f g = some (UIPart.knot (promapNodeFn f g grid) cs)) ∧
    (∀ (R : Type) (fd : Nat) (of : UIPart R) (f g : Val → Val),
        promap (UIPart.list fd of) f g = (promap of f g).map fun x => UIPart.list fd x) :=
  ⟨fun _ p q h => promap_id_eq p q h,
   fun _ p q r f1 g1 f2 g2 h1 h2 => promap_comp_eq p q r f1 g1 f2 g2 h1 h2,
   fun _ _ _ _ _ => rfl,
   fun _ _ _ _ _ => rfl⟩

/-- Witness for C7: both laws applied to a concrete Node over `R := Nat`. -/
theorem promap_profunctor_laws_witness :
    (UIPart.node (promapNodeFn (fun v => v) (fun v => v) (fun _ : NProps Nat => (0 : Nat)))
        = UIPart.node (fun _ : NProps Nat => (0 : Nat))) ∧
    promap (UIPart.node (fun _ : NProps Nat => (0 : Nat)))
        (fun v => (fun x => x) ((fun x => x) v)) (fun v => (fun x => x) ((fun x => x) v))
      = some (UIPart.node (promapNodeFn (fun v => v) (fun v => v)
          (promapNodeFn (fun v => v) (fun v => v) (fun _ : NProps Nat => (0 : Nat))))) :=
  ⟨promap_profunctor_laws.1 Nat _ _ rfl,
   promap_profunctor_laws.2.1 Nat (UIPart.node (fun _ : NProps Nat => (0 : Nat))) _ _
     (fun v => v) (fun v => v) (fun v => v) (fun v => v) rfl rfl⟩

theorem lookupKey_changeChildAt_ne {R : Type} :
    ∀ (cs : List (String × UIPart R)) (head : String) (tail : List String)
      (f : UIPart R → UIPart R) (k2 : String), k2 ≠ head →
      lookupKey (changeChildAt cs head tail f) k2 = lookupKey cs k2 := by
  intro cs head tail f k2 hne
  induction cs with
  | nil => rfl
  | cons p rest ih =>
    obtain ⟨k, c⟩ := p
    simp only [changeChildAt]
    by_cases hk : k = head
    · subst hk
      simp only [if_pos rfl, lookupKey, if_neg (Ne.symm hne)]
    · simp only [if_neg hk, lookupKey]
      by_cases hkk : k = k2
      · simp [hkk]
      · simp only [if_neg hkk]
        exact ih

theorem lookupKey_changeChildAt_eq {R : Type} :
    ∀ (cs : List (String × UIPart R)) (head : String) (tail : List String)
      (f : UIPart R → UIPart R) (c : UIPart R), lookupKey cs head = some c →
      lookupKey (changeChildAt cs head tail f) head = some (changeDescendant c tail f) := by
  intro cs head tail f c h
  induction cs with
  | nil => simp [lookupKey] at h
  | cons p rest ih =>
    obtain ⟨k, c2⟩ := p
    simp only [lookupKey] at h
    by_cases hk : k = head
    · subst hk
      simp only [if_pos rfl] at h
      simp only [changeChildAt, if_pos rfl, lookupKey]
      rw [Option.some.inj h]
      simp
    · simp only [if_neg hk] at h
      simp only [changeChildAt, if_neg hk, lookupKey, if_neg hk]
      exact ih h

/-- C2: `patch` at a non-empty path rebuilds exactly the addressed entry:
a Knot keeps its grid and every child at another key is the identical
sub-part, the entry at the head key is `patch` of the tail applied to the
original child; the same holds for a Union (tag preserved, other members
identical); Composite and List wrappers are traversed without consuming a
path segment (grid / foldable preserved). -/
theorem patch_preserves_siblings :
    (∀ (R : Type) (g : NProps R → R) (cs : List (String × UIPart R)) (k : String)
        (tail : List String) (f : UIPart R → UIPart R) (c : UIPart R),
        lookupKey cs k = some c →
        ∃ cs2, patch (k :: tail) f (UIPart.knot g cs) = UIPart.knot g cs2 ∧
          (∀ k2, k2 ≠ k → lookupKey cs2 k2 = lookupKey cs k2) ∧
          lookupKey cs2 k = some (patch tail f c)) ∧
    (∀ (R : Type) (tg : String) (ms : List (String × UIPart R)) (k : String)
        (tail : List String) (f : UIPart R → UIPart R) (c : UIPart R),
        lookupKey ms k = some c →
        ∃ ms2, patch (k :: tail) f (UIPart.union tg ms) = UIPart.union tg ms2 ∧
          (∀ k2, k2 ≠ k → lookupKey ms2 k2 = lookupKey ms k2) ∧
          lookupKey ms2 k = some (patch tail f c)) ∧
    (∀ (R : Type) (g : NProps R → R) (child : UIPart R) (path : List String)
        (f : UIPart R → UIPart R), path ≠ [] →
        patch path f (UIPart.composite g child) = UIPart.composite g (patch path f child)) ∧
    (∀ (R : Type) (fd : Nat) (of : UIPart R) (path : List String)
        (f : UIPart R → UIPart R), path ≠ [] →
        patch path f (UIPart.list fd of) = UIPart.list fd (patch path f of)) := by
  refine ⟨?_, ?_, ?_, ?_⟩
  · intro R g cs k tail f c h
    exact ⟨changeChildAt cs k tail f, rfl,
      fun k2 h2 => lookupKey_changeChildAt_ne cs k tail f k2 h2,
      lookupKey_changeChildAt_eq cs k tail f c h⟩
  · intro R tg ms k tail f c h
    exact ⟨changeChildAt ms k tail f, rfl,
      fun k2 h2 => lookupKey_changeChildAt_ne ms k tail f k2 h2,
      lookupKey_changeChildAt_eq ms k tail f c h⟩
  · intro R g child path f h
    cases path with
    | nil => exact absurd rfl h
    | cons p ps => rfl
  · intro R fd of path f h
    cases path with
    | nil => exact absurd rfl h
    | cons p ps => rfl

/-- Witness for C2: a two-child Knot over `R := Nat`, patched at child
`a` with a constant replacement, and a Composite traversed by a singleton
path. -/
theorem patch_preserves_siblings_witness :
    (∃ cs2, patch ["a"] (fun _ => UIPart.node fun _ => (3 : Nat))
          (UIPart.knot (fun _ => (0 : Nat))
            [("a", UIPart.node fun _ => 1), ("b", UIPart.node fun _ => 2)])
        = UIPart.knot (fun _ => (0 : Nat)) cs2 ∧
      (∀ k2, k2 ≠ "a" → lookupKey cs2 k2
          = lookupKey [("a", UIPart.node fun _ => (1 : Nat)), ("b", UIPart.node fun _ => 2)] k2) ∧
      lookupKey cs2 "a"
        = some (patch [] (fun _ => UIPart.node fun _ => (3 : Nat)) (UIPart.node fun _ => 1))) ∧
    patch ["x"] (fun p => p)
        (UIPart.composite (fun _ => (0 : Nat)) (UIPart.node fun _ => 1))
      = UIPart.composite (fun _ => (0 : Nat)) (patch ["x"] (fun p => p) (UIPart.node fun _ => 1)) :=
  ⟨patch_preserves_siblings.1 Nat (fun _ => 0)
      [("a", UIPart.node fun _ => 1), ("b", UIPart.node fun _ => 2)] "a" [] _ _ rfl,
   patch_preserves_siblings.2.2.1 Nat (fun _ => 0) (UIPart.node fun _ => 1) ["x"] (fun p => p)
      (by simp)⟩

theorem squashNotifyAt_eq {R : Type} :
    ∀ (cs : List (String × UIPart R)) (k : String) (a : Addr) (n : Val → Val),
      squashNotifyAt cs k a n = (lookupKey cs k).bind fun c => squashNotify c a n := by
  intro cs k a n
  induction cs with
  | nil => rfl
  | cons p rest ih =>
    obtain ⟨k2, c⟩ := p
    simp only [squashNotifyAt, lookupKey]
    by_cases h : k2 = k
    · simp [h]
    · simp only [if_neg h]
      exact ih

theorem squashNotify_delivers {R : Type} :
    ∀ (addr : Addr) (p : UIPart R) (n f : Val → Val),
      squashNotify p addr n = some f → ∀ v, f v = n (nestKeys (addrKeys addr) v) := by
  intro addr
  induction addr with
  | here =>
    intro p n f h v
    cases p <;> simp only [squashNotify] at h
    case node => rw [← Option.some.inj h]; rfl
    all_goals exact Option.noConfusion h
  | gridHere =>
    intro p n f h v
    cases p <;> simp only [squashNotify] at h
    case knot => rw [← Option.some.inj h]; rfl
    all_goals exact Option.noConfusion h
  | child k a ih =>
    intro p n f h v
    cases p <;> simp only [squashNotify] at h
    case knot g cs =>
      rw [squashNotifyAt_eq] at h
      cases hl : lookupKey cs k with
      | none => rw [hl] at h; exact Option.noConfusion h
      | some c =>
        rw [hl] at h
        simp only [Option.some_bind] at h
        rw [ih c (namespacedNotify k n) f h v]
        rfl
    all_goals exact Option.noConfusion h
  | through a ih =>
    intro p n f h v
    cases p <;> simp only [squashNotify] at h
    case composite g child => exact ih child n f h v
    all_goals exact Option.noConfusion h
  | elem k a ih =>
    intro p n f h v
    cases p <;> simp only [squashNotify] at h
    case list fd of =>
      rw [ih of (namespacedNotify k n) f h v]
      rfl
    all_goals exact Option.noConfusion h
  | member k a ih =>
    intro p n f h v
    cases p <;> simp only [squashNotify] at h
    case union tg ms =>
      rw [squashNotifyAt_eq] at h
      cases hl : lookupKey ms k with
      | none => rw [hl] at h; exact Option.noConfusion h
      | some c =>
        rw [hl] at h
        simp only [Option.some_bind] at h
        rw [ih c (namespacedNotify k n) f h v]
        rfl
    all_goals exact Option.noConfusion h

theorem nestKeys_injective :
    ∀ (ks ks2 : List String) (m m2 : Nat),
      nestKeys ks (.base m) = nestKeys ks2 (.base m2) → ks = ks2 ∧ m = m2 := by
  intro ks
  induction ks with
  | nil =>
    intro ks2 m m2 h
    cases ks2 with
    | nil =>
      simp only [nestKeys, List.foldr_nil, Val.base.injEq] at h
      exact ⟨rfl, h⟩
    | cons k2 ks2 => simp [nestKeys] at h
  | cons k ks ih =>
    intro ks2 m m2 h
    cases ks2 with
    | nil => simp [nestKeys] at h
    | cons k2 ks2 =>
      simp only [nestKeys, List.foldr_cons, Val.keyed.injEq] at h
      obtain ⟨hk, hrest⟩ := h
      obtain ⟨h1, h2⟩ := ih ks2 m m2 hrest
      exact ⟨by rw [hk, h1], h2⟩

/-- C1: for any part mounted by the engine, the notify sink `squash` binds
at any emitting site delivers a raw action `v` to the composed action
stream as the value nested once per enclosing Knot-child / List-element /
Union-member level along the path (`nestKeys` of the address keys), a
Knot's own grid emitting under the reserved `'root'` key; with `mount`'s
root sink the delivered value is exactly that nesting, and the nesting is
injective on (path, payload), so an action can never surface under a
different child's key or with the wrapping flattened. -/
theorem squash_actions_path_exact :
    (∀ (R : Type) (p : UIPart R) (addr : Addr) (n f : Val → Val),
        squashNotify p addr n = some f → ∀ v, f v = n (nestKeys (addrKeys addr) v)) ∧
    (∀ (R : Type) (p : UIPart R) (addr : Addr) (f : Val → Val),
        squashNotify p addr mountNotify = some f → ∀ v, f v = nestKeys (addrKeys addr) v) ∧
    (∀ (R : Type) (g : NProps R → R) (cs : List (String × UIPart R)) (n : Val → Val) (v : Val),
        ∀ f, squashNotify (UIPart.knot g cs) Addr.gridHere n = some f →
          f v = n (Val.keyed "root" v)) ∧
    (∀ (ks ks2 : List String) (m m2 : Nat),
        nestKeys ks (Val.base m) = nestKeys ks2 (Val.base m2) → ks = ks2 ∧ m = m2) := by
  refine ⟨?_, ?_, ?_, ?_⟩
  · intro R p addr n f h v
    exact squashNotify_delivers addr p n f h v
  · intro R p addr f h v
    exact squashNotify_delivers addr p mountNotify f h v
  · intro R g cs n v f h
    simp only [squashNotify] at h
    rw [← Option.some.inj h]
    rfl
  · exact nestKeys_injective

/-- Witness for C1: a Knot with children `a`, `b` over `R := Nat`, mounted
with the root sink; an action from the node at `a` arrives as
`\x7bkey: 'a', action: v\x7d`, and the grid's own action as
`\x7bkey: 'root', action: v\x7d`. -/
theorem squash_actions_path_exact_witness :
    (namespacedNotify "a" mountNotify (Val.base 7)
        = nestKeys (addrKeys (Addr.child "a" Addr.here)) (Val.base 7)) ∧
    (namespacedNotify ROOT mountNotify (Val.base 9) = mountNotify (Val.keyed "root" (Val.base 9))) ∧
    (nestKeys ["a"] (Val.base 7) = nestKeys ["a"] (Val.base 7) → ["a"] = ["a"] ∧ 7 = 7) :=
  ⟨squash_actions_path_exact.2.1 Nat
      (UIPart.knot (fun _ => 0) [("a", UIPart.node fun _ => 0), ("b", UIPart.node fun _ => 0)])
      (Addr.child "a" Addr.here) (namespacedNotify "a" mountNotify) rfl (Val.base 7),
   squash_actions_path_exact.2.2.1 Nat (fun _ => (0 : Nat))
      [("a", UIPart.node fun _ => 0), ("b", UIPart.node fun _ => 0)] mountNotify (Val.base 9)
      (namespacedNotify ROOT mountNotify) rfl,
   fun h => squash_actions_path_exact.2.2.2 ["a"] ["a"] 7 7 h⟩

theorem modifyLastGroup_concat {K : Type} (f : SplitGroup K → SplitGroup K) :
    ∀ (gs : List (SplitGroup K)) (g : SplitGroup K),
      modifyLastGroup f (gs ++ [g]) = gs ++ [f g]
  | [], _ => rfl
  | [_], _ => rfl
  | g2 :: g3 :: rest, g => by
    show g2 :: modifyLastGroup f ((g3 :: rest) ++ [g]) = g2 :: ((g3 :: rest) ++ [f g])
    rw [modifyLastGroup_concat f (g3 :: rest) g]

theorem modifyLastGroup_length {K : Type} (f : SplitGroup K → SplitGroup K) :
    ∀ (gs : List (SplitGroup K)), (modifyLastGroup f gs).length = gs.length
  | [] => rfl
  | [_] => rfl
  | g :: g2 :: rest => by
    show (g :: modifyLastGroup f (g2 :: rest)).length = (g :: g2 :: rest).length
    simp [modifyLastGroup_length f (g2 :: rest)]

theorem modifyLastGroup_take {K : Type} (f : SplitGroup K → SplitGroup K) :
    ∀ (gs : List (SplitGroup K)),
      (modifyLastGroup f gs).take (gs.length - 1) = gs.take (gs.length - 1)
  | [] => rfl
  | [_] => rfl
  | g :: g2 :: rest => by
    have ih := modifyLastGroup_take f (g2 :: rest)
    show (g :: modifyLastGroup f (g2 :: rest)).take (rest.length + 1)
        = (g :: g2 :: rest).take (rest.length + 1)
    simp only [List.take_succ_cons]
    simp only [List.length_cons, Nat.add_sub_cancel] at ih
    rw [ih]

theorem lastGroupClosed_concat {K : Type} (gs : List (SplitGroup K)) (g : SplitGroup K) :
    lastGroupClosed (gs ++ [g]) = g.closed := by
  simp [lastGroupClosed, List.getLast?_concat]

/-- C4: when a value arrives whose discriminant differs from the current
group's key, `splitNext` completes the current group and appends (emits) a
brand-new group whose subject is seeded with the triggering value; a step
never alters any group other than the current (last) one; and on the tag
sequence A, A, B, A exactly three groups are produced (A, B, A), the first
A-group having received nothing after the B-group started and the final
A-group being fresh with only the triggering value. -/
theorem splitBy_switches_groups :
    (∀ (K : Type) (inst : DecidableEq K) (gs : List (SplitGroup K)) (g : SplitGroup K)
        (ck k : K) (v : Val), ck ≠ k → g.closed = false →
        splitNext ⟨some ck, gs ++ [g]⟩ k v
          = ⟨some k, gs ++ [{ g with completed := true }, ⟨k, [v], false, false⟩]⟩) ∧
    (∀ (K : Type) (inst : DecidableEq K) (st : SplitState K) (k : K) (v : Val),
        (splitNext st k v).groups.take (st.groups.length - 1)
          = st.groups.take (st.groups.length - 1)) ∧
    runSplit [("A", Val.base 1), ("A", Val.base 2), ("B", Val.base 3), ("A", Val.base 4)]
      = ⟨some "A",
         [⟨"A", [Val.base 1, Val.base 2], true, false⟩,
          ⟨"B", [Val.base 3], true, false⟩,
          ⟨"A", [Val.base 4], false, false⟩]⟩ := by
  refine ⟨?_, ?_, by decide⟩
  · intro K inst gs g ck k v hne _
    simp only [splitNext, if_pos hne, splitCreateGroup, modifyLastGroup_concat]
    simp
  · intro K inst st k v
    obtain ⟨ck, gs⟩ := st
    cases ck with
    | none =>
      simp only [splitNext, splitCreateGroup]
      exact List.take_append_of_le_length (Nat.sub_le _ _)
    | some ck =>
      simp only [splitNext]
      by_cases hk : ck ≠ k
      · simp only [if_pos hk, splitCreateGroup]
        rw [List.take_append_of_le_length
              (by rw [modifyLastGroup_length]; exact Nat.sub_le _ _)]
        exact modifyLastGroup_take _ gs
      · simp only [if_neg hk]
        by_cases hc : ¬ lastGroupClosed gs
        · simp only [if_pos hc]
          exact modifyLastGroup_take _ gs
        · simp only [if_neg hc]

/-- Witness for C4: a change from the current A-group to B completes the
A-group and seeds a fresh B-group; the frame part applied at the same
state. -/
theorem splitBy_switches_groups_witness :
    (splitNext ⟨some "A", [⟨"A", [Val.base 1], false, false⟩]⟩ "B" (Val.base 2)
        = ⟨some "B", [⟨"A", [Val.base 1], true, false⟩, ⟨"B", [Val.base 2], false, false⟩]⟩) ∧
    (splitNext ⟨some "A", [⟨"A", [Val.base 1], false, false⟩]⟩ "B" (Val.base 2)).groups.take 0
        = ([⟨"A", [Val.base 1], false, false⟩] : List (SplitGroup String)).take 0 :=
  ⟨splitBy_switches_groups.1 String inferInstance [] ⟨"A", [Val.base 1], false, false⟩
      "A" "B" (Val.base 2) (by decide) rfl,
   splitBy_switches_groups.2.1 String inferInstance
      ⟨some "A", [⟨"A", [Val.base 1], false, false⟩]⟩ "B" (Val.base 2)⟩

/-- C10: a value whose discriminant equals the current group's key but
arrives after that group's subject has been closed (unsubscribed) is
silently dropped by `_next`: the subscriber state is unchanged — nothing is
forwarded into the group's subject, no new group is created, no outer
emission occurs, and the taken branch performs no call that can raise. -/
theorem splitBy_closed_group_drops :
    ∀ (K : Type) (inst : DecidableEq K) (gs : List (SplitGroup K)) (g : SplitGroup K)
      (k : K) (v : Val), g.closed = true →
      splitNext ⟨some k, gs ++ [g]⟩ k v = ⟨some k, gs ++ [g]⟩ := by
  intro K inst gs g k v hc
  simp only [splitNext, if_neg (by simp : ¬ k ≠ k)]
  rw [lastGroupClosed_concat, hc]
  simp

/-- Witness for C10: an A-value arriving at a closed current A-group leaves
the splitter state untouched. -/
theorem splitBy_closed_group_drops_witness :
    splitNext ⟨some "A", [⟨"A", [Val.base 1], false, true⟩]⟩ "A" (Val.base 2)
      = ⟨some "A", [⟨"A", [Val.base 1], false, true⟩]⟩ :=
  splitBy_closed_group_drops String inferInstance [] ⟨"A", [Val.base 1], false, true⟩
    "A" (Val.base 2) rfl

/-- Counterexample for C8 as stated: with the empty accumulated state (the
very seed `\x7b\x7d` that `animatingFlow`'s scan starts from) a 'both'
decision yields only ONE iteration — the current iteration cannot be
retained because no previous children state exists — contradicting "the
result contains exactly two iterations". -/
theorem collectAnimationState_both_on_empty :
    collectAnimationState (fun _ _ => some (AThese.both 0 0)) 0
        ([] : List (Nat × AnimView Nat Nat Nat)) 5
      = [(1, ⟨some (Sum.inr 0), 5⟩)] ∧
    (collectAnimationState (fun _ _ => some (AThese.both 0 0)) 0
        ([] : List (Nat × AnimView Nat Nat Nat)) 5).length ≠ 2 :=
  ⟨rfl, by decide⟩

/-- C8 (amended): one step of `collectAnimationState`.  If the decision on
(previous children state, next children state) returns no transition, the
result is exactly one iteration — the current one — settled
(`root = none`) with the new children state.  If it returns a 'both'
transition *and the accumulated state contains the current iteration* (so
a previous children state exists), the result is exactly two iterations:
the current one with `root = some (out direction)` and its previous
children state, and a fresh next iteration (key `prevIteration + 1`) with
`root = some (in direction)` and the new children state, both retained
until resolved. -/
theorem collectAnimationState_transitions :
    (∀ (Out Inn State : Type)
        (shouldAnimate : Option State → State → Option (AThese Out Inn))
        (prevIteration : Nat) (acc : List (Nat × AnimView Out Inn State)) (next : State),
        shouldAnimate ((lookupKey acc prevIteration).map AnimView.children) next = none →
        collectAnimationState shouldAnimate prevIteration acc next
          = [(prevIteration, ⟨none, next⟩)]) ∧
    (∀ (Out Inn State : Type)
        (shouldAnimate : Option State → State → Option (AThese Out Inn))
        (prevIteration : Nat) (acc : List (Nat × AnimView Out Inn State)) (next : State)
        (pv : AnimView Out Inn State) (o : Out) (i : Inn),
        lookupKey acc prevIteration = some pv →
        shouldAnimate (some pv.children) next = some (.both o i) →
        collectAnimationState shouldAnimate prevIteration acc next
          = [(prevIteration, ⟨some (Sum.inl o), pv.children⟩),
             (prevIteration + 1, ⟨some (Sum.inr i), next⟩)]) := by
  constructor
  · intro Out Inn State sa pi acc next h
    simp only [collectAnimationState, h]
  · intro Out Inn State sa pi acc next pv o i hl hsa
    simp only [collectAnimationState, hl, Option.map_some', hsa, AThese.getRight, AThese.getLeft]

/-- Witness for C8: both transition shapes at a concrete accumulated state
containing the current iteration. -/
theorem collectAnimationState_transitions_witness :
    (collectAnimationState (fun _ _ => (none : Option (AThese Nat Nat))) 0
        ([(0, ⟨none, 3⟩)] : List (Nat × AnimView Nat Nat Nat)) 7
      = [(0, ⟨none, 7⟩)]) ∧
    (collectAnimationState (fun _ _ => some (AThese.both 1 2)) 0
        ([(0, ⟨none, 3⟩)] : List (Nat × AnimView Nat Nat Nat)) 7
      = [(0, ⟨some (Sum.inl 1), 3⟩), (1, ⟨some (Sum.inr 2), 7⟩)]) :=
  ⟨collectAnimationState_transitions.1 Nat Nat Nat _ 0 _ 7 rfl,
   collectAnimationState_transitions.2 Nat Nat Nat _ 0 _ 7 ⟨none, 3⟩ 1 2 rfl rfl⟩

theorem demux_append_own (k : String) (as : List KeyedAction) (v : Val) :
    demux k (as ++ [⟨k, v⟩]) = demux k as ++ [v] := by
  simp [demux, List.filter_append]

theorem demux_append_other (k k2 : String) (as : List KeyedAction) (v : Val) (h : k2 ≠ k) :
    demux k (as ++ [⟨k2, v⟩]) = demux k as := by
  simp [demux, List.filter_append, h]

theorem lookupKey_setField_present (k : String) (v : Val) :
    ∀ (fs : List (String × Val)), (fs.any fun p => p.1 == k) = true →
      lookupKey (fs.map fun p => if p.1 == k then (k, v) else p) k = some v
  | [], h => by simp at h
  | (k1, v1) :: rest, h => by
    by_cases h1 : k1 = k
    · subst h1
      rw [List.map_cons, if_pos (beq_self_eq_true k1)]
      simp [lookupKey]
    · have hb : (k1 == k) = false := beq_eq_false_iff_ne.mpr h1
      have hnot : ¬ ((k1 == k) = true) := by simp [hb]
      rw [List.map_cons, if_neg hnot]
      simp only [lookupKey, if_neg h1]
      apply lookupKey_setField_present k v rest
      simpa [List.any_cons, hb] using h

theorem lookupKey_setField_absent (k : String) (v : Val) :
    ∀ (fs : List (String × Val)), (fs.any fun p => p.1 == k) = false →
      lookupKey (fs ++ [(k, v)]) k = some v
  | [], _ => by simp [lookupKey]
  | (k1, v1) :: rest, h => by
    simp only [List.any_cons, Bool.or_eq_false_iff] at h
    have h1 : k1 ≠ k := by simpa using h.1
    simp only [List.cons_append, lookupKey, if_neg h1]
    exact lookupKey_setField_absent k v rest h.2

theorem lookupKey_setField (fs : List (String × Val)) (k : String) (v : Val) :
    lookupKey (setField fs k v) k = some v := by
  simp only [setField]
  by_cases h : (fs.any fun p => p.1 == k) = true
  · rw [if_pos h]
    exact lookupKey_setField_present k v fs h
  · rw [if_neg h]
    exact lookupKey_setField_absent k v fs (Bool.eq_false_iff.mpr h)

/-- Counterexample for C6 as stated: the claim says the active member's
Flow is re-subscribed *exactly when* the discriminant produced by the tag
selector changes.  But `composeUnion` pipes the selector's output straight
into `switchMap` with no deduplication, and `switchMap` replaces its inner
subscription on *every* outer emission.  Concretely, with a member flow
that emits the number of actions it has received, a selector re-emission
of the unchanged discriminant `a` (two segments with key `a`) restarts the
member flow — the output differs from the single-subscription run the
claim mandates. -/
theorem composeUnion_restart_on_same_tag :
    composeUnionOut "t" (fun _ acts => [[("n", Val.base acts.length)]])
        [("a", []), ("a", [⟨"a", Val.base 0⟩])]
      ≠ composeUnionOut "t" (fun _ acts => [[("n", Val.base acts.length)]])
        [("a", [] ++ [⟨"a", Val.base 0⟩])] := by
  decide

/-- C6 (amended): `composeUnion` gives the tag selector the entire incoming
action stream; the active member's Flow is fed only the actions tagged with
that member's key; the current tag value is merged into every state the
active member emits; and the active member's Flow is re-subscribed (the
previous inner subscription cancelled) on *every* emission of the tag
selector — whenever the discriminant changes, but also when an unchanged
discriminant is re-emitted, each selector emission starting a fresh run of
the member flow on the actions arriving from that point. -/
theorem composeUnion_routing :
    (∀ (acts : List KeyedAction), composeUnionSelectorInput acts = acts) ∧
    (∀ (k : String) (as : List KeyedAction) (v : Val),
        demux k (as ++ [⟨k, v⟩]) = demux k as ++ [v]) ∧
    (∀ (k k2 : String) (as : List KeyedAction) (v : Val), k2 ≠ k →
        demux k (as ++ [⟨k2, v⟩]) = demux k as) ∧
    (∀ (tag : String) (flows : String → List Val → List (List (String × Val)))
        (segs : List (String × List KeyedAction)) (k : String) (acts : List KeyedAction),
        composeUnionOut tag flows (segs ++ [(k, acts)])
          = composeUnionOut tag flows segs
            ++ (flows k (demux k acts)).map fun s => setField s tag (.str k)) ∧
    (∀ (tag : String) (flows : String → List Val → List (List (String × Val)))
        (k : String) (acts : List KeyedAction) (s : List (String × Val)),
        s ∈ composeUnionSegOut tag flows k acts → lookupKey s tag = some (.str k)) := by
  refine ⟨fun _ => rfl, demux_append_own, demux_append_other, ?_, ?_⟩
  · intro tag flows segs k acts
    simp [composeUnionOut, composeUnionSegOut]
  · intro tag flows k acts s hs
    obtain ⟨s0, _, rfl⟩ := List.mem_map.mp hs
    exact lookupKey_setField s0 tag (.str k)

/-- Witness for C6: routing and tag-merge at concrete inputs. -/
theorem composeUnion_routing_witness :
    (demux "a" ([] ++ [⟨"a", Val.base 3⟩]) = demux "a" [] ++ [Val.base 3]) ∧
    (demux "a" ([⟨"a", Val.base 3⟩] ++ [⟨"b", Val.base 4⟩]) = demux "a" [⟨"a", Val.base 3⟩]) ∧
    lookupKey [("n", Val.base 0), ("t", Val.str "a")] "t" = some (Val.str "a") :=
  ⟨composeUnion_routing.2.1 "a" [] (Val.base 3),
   composeUnion_routing.2.2.1 "a" "b" [⟨"a", Val.base 3⟩] (Val.base 4) (by decide),
   composeUnion_routing.2.2.2.2 "t" (fun _ _ => [[("n", Val.base 0)]]) "a" []
     [("n", Val.base 0), ("t", Val.str "a")] (by decide)⟩

theorem latestVal_append_own (events : List (String × Val)) (k : String) (v : Val) :
    latestVal (events ++ [(k, v)]) k = some v := by
  simp [latestVal, List.filter_append, List.getLast?_concat]

theorem latestVal_append_other (events : List (String × Val)) (k k2 : String) (v : Val)
    (h : k2 ≠ k) : latestVal (events ++ [(k2, v)]) k = latestVal events k := by
  simp [latestVal, List.filter_append, h]

theorem latestVal_none (events : List (String × Val)) (k : String)
    (h : ∀ e ∈ events, e.1 ≠ k) : latestVal events k = none := by
  have hf : events.filter (fun e => e.1 == k) = [] := by
    rw [List.filter_eq_nil_iff]
    intro e he
    simpa using h e he
  simp [latestVal, hf]

theorem composeKnotOutGo_append (ks : List String) :
    ∀ (es seen : List (String × Val)) (e : String × Val),
      composeKnotOutGo ks seen (es ++ [e])
        = composeKnotOutGo ks seen es
          ++ (if ks.all fun k => (latestVal (seen ++ es ++ [e]) k).isSome
              then [knotSnapshot ks (seen ++ es ++ [e])] else []) := by
  intro es
  induction es with
  | nil =>
    intro seen e
    simp [composeKnotOutGo]
  | cons e2 rest ih =>
    intro seen e
    simp only [List.cons_append, composeKnotOutGo, List.append_eq]
    rw [ih (seen ++ [e2]) e]
    simp [List.append_assoc]

theorem composeKnotOutGo_missing (ks : List String) (k : String) (hk : k ∈ ks) :
    ∀ (es seen : List (String × Val)), (∀ e ∈ seen ++ es, e.1 ≠ k) →
      composeKnotOutGo ks seen es = [] := by
  intro es
  induction es with
  | nil => intro seen _; rfl
  | cons e2 rest ih =>
    intro seen h
    simp only [composeKnotOutGo]
    have hnone : latestVal (seen ++ [e2]) k = none := by
      apply latestVal_none
      intro e he
      apply h
      simp at he ⊢
      tauto
    have hgate : ¬ (ks.all fun k2 => (latestVal (seen ++ [e2]) k2).isSome) = true := by
      rw [List.all_eq_true]
      intro hall
      have h2 := hall k hk
      rw [hnone] at h2
      simp at h2
    rw [if_neg hgate, List.nil_append]
    apply ih (seen ++ [e2])
    intro e he
    apply h
    simp at he ⊢
    tauto

theorem lookupKey_map_self (f : String → Val) :
    ∀ (ks : List String) (k2 : String), k2 ∈ ks →
      lookupKey (ks.map fun k => (k, f k)) k2 = some (f k2)
  | [], k2, h => by simp at h
  | k1 :: rest, k2, h => by
    simp only [List.map_cons, lookupKey]
    by_cases h1 : k1 = k2
    · simp [h1]
    · rw [if_neg h1]
      exact lookupKey_map_self f rest k2 (by
        rcases List.mem_cons.mp h with h2 | h2
        · exact absurd h2.symm h1
        · exact h2)

/-- C5: `composeKnot` feeds the flow at key `k` exactly the actions tagged
`k` (the reserved root key being just another record key routed the same
way); its combine-latest output stage produces no emission while any child
key has produced no value; and once every key has a value, each single
child emission yields exactly one combined record carrying that child's new
value together with every other child's most recent value under its own
key. -/
theorem composeKnot_combines :
    (∀ (k : String) (as : List KeyedAction) (v : Val),
        demux k (as ++ [⟨k, v⟩]) = demux k as ++ [v]) ∧
    (∀ (k k2 : String) (as : List KeyedAction) (v : Val), k2 ≠ k →
        demux k (as ++ [⟨k2, v⟩]) = demux k as) ∧
    (∀ (ks : List String) (events : List (String × Val)) (k : String), k ∈ ks →
        (∀ e ∈ events, e.1 ≠ k) → composeKnotOut ks events = []) ∧
    (∀ (ks : List String) (events : List (String × Val)) (k : String) (v : Val),
        (∀ k2 ∈ ks, (latestVal events k2).isSome) →
        composeKnotOut ks (events ++ [(k, v)])
          = composeKnotOut ks events ++ [knotSnapshot ks (events ++ [(k, v)])]) ∧
    (∀ (ks : List String) (events : List (String × Val)) (k : String) (v : Val)
        (k2 : String), k2 ∈ ks →
        lookupKey (knotSnapshot ks (events ++ [(k, v)])) k2
          = some (if k2 = k then v else (latestVal events k2).getD (Val.base 0))) := by
  refine ⟨demux_append_own, demux_append_other, ?_, ?_, ?_⟩
  · intro ks events k hk h
    exact composeKnotOutGo_missing ks k hk events [] (by simpa using h)
  · intro ks events k v hall
    show composeKnotOutGo ks [] (events ++ [(k, v)]) = _
    rw [composeKnotOutGo_append ks events [] (k, v)]
    rw [List.nil_append]
    have hgate : (ks.all fun k2 => (latestVal (events ++ [(k, v)]) k2).isSome) = true := by
      rw [List.all_eq_true]
      intro k2 hk2
      by_cases h2 : k2 = k
      · subst h2
        rw [latestVal_append_own]
        rfl
      · rw [latestVal_append_other events k2 k v (fun he => h2 he.symm)]
        exact hall k2 hk2
    rw [if_pos hgate]
    rfl
  · intro ks events k v k2 hk2
    rw [knotSnapshot,
        lookupKey_map_self (fun k3 => (latestVal (events ++ [(k, v)]) k3).getD (Val.base 0)) ks k2 hk2]
    by_cases h2 : k2 = k
    · subst h2
      rw [latestVal_append_own]
      simp
    · rw [latestVal_append_other events k2 k v (fun he => h2 he.symm)]
      simp [h2]

/-- Witness for C5: concrete routing and combine-latest behaviour for a
two-child knot with keys `root` and `a`. -/
theorem composeKnot_combines_witness :
    (demux "root" ([] ++ [⟨"root", Val.base 1⟩]) = demux "root" [] ++ [Val.base 1]) ∧
    (composeKnotOut ["root", "a"] [("root", Val.base 1)] = []) ∧
    (composeKnotOut ["root", "a"] ([("root", Val.base 1), ("a", Val.base 2)] ++ [("a", Val.base 3)])
        = composeKnotOut ["root", "a"] [("root", Val.base 1), ("a", Val.base 2)]
          ++ [knotSnapshot ["root", "a"]
                ([("root", Val.base 1), ("a", Val.base 2)] ++ [("a", Val.base 3)])]) ∧
    (lookupKey (knotSnapshot ["root", "a"]
          ([("root", Val.base 1), ("a", Val.base 2)] ++ [("a", Val.base 3)])) "root"
        = some (Val.base 1)) :=
  ⟨composeKnot_combines.1 "root" [] (Val.base 1),
   composeKnot_combines.2.2.1 ["root", "a"] [("root", Val.base 1)] "a" (by decide) (by decide),
   composeKnot_combines.2.2.2.1 ["root", "a"] [("root", Val.base 1), ("a", Val.base 2)]
     "a" (Val.base 3) (by decide),
   by
     have h := composeKnot_combines.2.2.2.2 ["root", "a"]
       [("root", Val.base 1), ("a", Val.base 2)] "a" (Val.base 3) "root" (by decide)
     simpa using h⟩

theorem dUCgo_cons {α : Type} (eq : α → α → Bool) (prev y : α) (ys : List α) :
    dUCgo eq prev (y :: ys) = if eq prev y then dUCgo eq prev ys else y :: dUCgo eq y ys := rfl

theorem distinctUntilChanged_cons {α : Type} (eq : α → α → Bool) (x : α) (xs : List α) :
    distinctUntilChanged eq (x :: xs) = x :: dUCgo eq x xs := rfl

theorem dUCgo_dup {α : Type} (eq : α → α → Bool)
    (htrans : ∀ x y z, eq x y = true → eq y z = true → eq x z = true)
    (a b : α) (hab : eq a b = true) :
    ∀ (pre : List α) (post : List α) (prev : α),
      dUCgo eq prev (pre ++ a :: b :: post) = dUCgo eq prev (pre ++ a :: post) := by
  intro pre
  induction pre with
  | nil =>
    intro post prev
    rw [List.nil_append, List.nil_append,
        dUCgo_cons eq prev a (b :: post), dUCgo_cons eq prev a post]
    by_cases h : eq prev a = true
    · rw [if_pos h, if_pos h, dUCgo_cons eq prev b post, if_pos (htrans prev a b h hab)]
    · rw [if_neg h, if_neg h, dUCgo_cons eq a b post, if_pos hab]
  | cons p ps ih =>
    intro post prev
    rw [List.cons_append, List.cons_append,
        dUCgo_cons eq prev p (ps ++ a :: b :: post), dUCgo_cons eq prev p (ps ++ a :: post)]
    by_cases h : eq prev p = true
    · rw [if_pos h, if_pos h]
      exact ih post prev
    · rw [if_neg h, if_neg h, ih post p]

theorem distinctUntilChanged_dup {α : Type} (eq : α → α → Bool)
    (htrans : ∀ x y z, eq x y = true → eq y z = true → eq x z = true)
    (a b : α) (hab : eq a b = true) :
    ∀ (pre post : List α),
      distinctUntilChanged eq (pre ++ a :: b :: post)
        = distinctUntilChanged eq (pre ++ a :: post) := by
  intro pre post
  cases pre with
  | nil =>
    rw [List.nil_append, List.nil_append,
        distinctUntilChanged_cons eq a (b :: post), distinctUntilChanged_cons eq a post,
        dUCgo_cons eq a b post, if_pos hab]
  | cons x xs =>
    rw [List.cons_append, List.cons_append,
        distinctUntilChanged_cons eq x (xs ++ a :: b :: post),
        distinctUntilChanged_cons eq x (xs ++ a :: post),
        dUCgo_dup eq htrans a b hab xs post x]

theorem getLast?_map_eq {α β : Type} (f : α → β) :
    ∀ (l : List α), (l.map f).getLast? = l.getLast?.map f
  | [] => rfl
  | [_] => rfl
  | x :: y :: xs => by
    rw [List.map_cons, List.map_cons, List.getLast?_cons_cons, List.getLast?_cons_cons,
        ← List.map_cons]
    exact getLast?_map_eq f (y :: xs)

theorem getLast?_getD_cons {α : Type} (h1 : α) (t1 : List α) (d : α) :
    ((h1 :: t1).getLast?).getD d = (t1.getLast?).getD h1 := by
  cases t1 with
  | nil => rfl
  | cons z zs =>
    rw [List.getLast?_cons_cons]
    rw [List.getLast?_eq_getLast (z :: zs) (by simp)]
    rfl

theorem dUCgo_append_last {α : Type} (eq : α → α → Bool) (P : α → Prop)
    (hsym : ∀ x y, P x → P y → eq x y = true → eq y x = true)
    (htrans : ∀ x y z, P x → P y → P z → eq x y = true → eq y z = true → eq x z = true) :
    ∀ (l : List α) (prev x : α), P prev → (∀ y ∈ l, P y) → P x →
      dUCgo eq prev (l ++ [x])
        = dUCgo eq prev l
          ++ (if eq ((l.getLast?).getD prev) x then [] else [x]) := by
  intro l
  induction l with
  | nil =>
    intro prev x _ _ _
    rw [List.nil_append, dUCgo_cons eq prev x []]
    show _ = [] ++ if eq prev x then [] else [x]
    by_cases h : eq prev x = true
    · rw [if_pos h, if_pos h]
      rfl
    · rw [if_neg h, if_neg h]
      rfl
  | cons y ys ih =>
    intro prev x hp hl hx
    have hy : P y := hl y (List.mem_cons_self y ys)
    have hys : ∀ z ∈ ys, P z := fun z hz => hl z (List.mem_cons_of_mem y hz)
    rw [List.cons_append, dUCgo_cons eq prev y (ys ++ [x]), dUCgo_cons eq prev y ys]
    by_cases h : eq prev y = true
    · rw [if_pos h, if_pos h, ih prev x hp hys hx]
      congr 1
      cases ys with
      | nil =>
        show (if eq prev x then ([] : List α) else [x]) = if eq y x then [] else [x]
        by_cases h2 : eq prev x = true
        · rw [if_pos h2, if_pos (htrans y prev x hy hp hx (hsym prev y hp hy h) h2)]
        · rw [if_neg h2, if_neg (fun h3 => h2 (htrans prev y x hp hy hx h h3))]
      | cons z zs =>
        rw [List.getLast?_cons_cons]
    · rw [if_neg h, if_neg h, ih y x hy hys hx, getLast?_getD_cons y ys prev,
        List.cons_append]

theorem distinctUntilChanged_append_last {α : Type} (eq : α → α → Bool) (P : α → Prop)
    (hsym : ∀ x y, P x → P y → eq x y = true → eq y x = true)
    (htrans : ∀ x y z, P x → P y → P z → eq x y = true → eq y z = true → eq x z = true)
    (h1 : α) (t1 : List α) (x : α) (hp1 : P h1) (hpt : ∀ y ∈ t1, P y) (hx : P x) :
    distinctUntilChanged eq ((h1 :: t1) ++ [x])
      = distinctUntilChanged eq (h1 :: t1)
        ++ (if eq (((h1 :: t1).getLast?).getD h1) x then [] else [x]) := by
  rw [List.cons_append, distinctUntilChanged_cons eq h1 (t1 ++ [x]),
      distinctUntilChanged_cons eq h1 t1,
      dUCgo_append_last eq P hsym htrans t1 h1 x hp1 hpt hx,
      getLast?_getD_cons h1 t1 h1, List.cons_append]

theorem fromFoldableEntry_fst {K : Type} [DecidableEq K] (old : List (K × Nat)) :
    ∀ (l : List (K × Val)) (res : List (K × Nat)) (store : CellStore),
      (l.foldl (fromFoldableEntry old) (res, store)).1.map Prod.fst
        = res.map Prod.fst ++ l.map Prod.fst
  | [], res, store => by simp
  | kv :: rest, res, store => by
    rw [List.foldl_cons]
    cases hl : lookupKey old kv.1 with
    | some c =>
      rw [show fromFoldableEntry old (res, store) kv = (res ++ [(kv.1, c)], store.push c kv.2)
            from by simp [fromFoldableEntry, hl]]
      rw [fromFoldableEntry_fst old rest (res ++ [(kv.1, c)]) (store.push c kv.2)]
      simp
    | none =>
      rw [show fromFoldableEntry old (res, store) kv
            = (res ++ [(kv.1, store.fresh)], store.newCell kv.2)
            from by simp [fromFoldableEntry, hl]]
      rw [fromFoldableEntry_fst old rest (res ++ [(kv.1, store.fresh)]) (store.newCell kv.2)]
      simp

theorem fromFoldableStep_fst {K : Type} [DecidableEq K] (old : List (K × Nat))
    (store : CellStore) (coll : List (K × Val)) :
    (fromFoldableStep old store coll).1.map Prod.fst = coll.map Prod.fst := by
  rw [fromFoldableStep, fromFoldableEntry_fst old coll [] store]
  rfl

theorem fromFoldableScan_keys {K : Type} [DecidableEq K] :
    ∀ (colls : List (List (K × Val))) (old : List (K × Nat)) (store : CellStore),
      (fromFoldableScan old store colls).1.map (fun s => s.map Prod.fst)
        = colls.map fun c => c.map Prod.fst
  | [], _, _ => rfl
  | coll :: rest, old, store => by
    simp only [fromFoldableScan, List.map_cons]
    rw [fromFoldableScan_keys rest _ _, fromFoldableStep_fst]

theorem fromFoldableScan_snoc {K : Type} [DecidableEq K] :
    ∀ (colls : List (List (K × Val))) (old : List (K × Nat)) (store : CellStore)
      (c : List (K × Val)),
      fromFoldableScan old store (colls ++ [c])
        = ((fromFoldableScan old store colls).1
             ++ [(fromFoldableStep (((fromFoldableScan old store colls).1.getLast?).getD old)
                    (fromFoldableScan old store colls).2 c).1],
           (fromFoldableStep (((fromFoldableScan old store colls).1.getLast?).getD old)
              (fromFoldableScan old store colls).2 c).2)
  | [], old, store, c => by
    simp [fromFoldableScan]
  | coll :: rest, old, store, c => by
    simp only [List.cons_append, fromFoldableScan, List.append_eq]
    rw [fromFoldableScan_snoc rest _ _ c]
    rw [getLast?_getD_cons]

theorem sameKeys_def {K : Type} [DecidableEq K] (ka kb : List K) :
    sameKeys ka kb = true ↔ ka.length = kb.length ∧ ∀ k ∈ ka, k ∈ kb := by
  simp only [sameKeys, Bool.and_eq_true, beq_iff_eq, List.all_eq_true, List.any_eq_true,
    decide_eq_true_eq]
  constructor
  · rintro ⟨h1, h2⟩
    refine ⟨h1, fun k hk => ?_⟩
    obtain ⟨k2, hk2, he⟩ := h2 k hk
    rw [← he]
    exact hk2
  · rintro ⟨h1, h2⟩
    exact ⟨h1, fun k hk => ⟨k, h2 k hk, rfl⟩⟩

theorem sameKeys_trans {K : Type} [DecidableEq K] (a b c : List K)
    (h1 : sameKeys a b = true) (h2 : sameKeys b c = true) : sameKeys a c = true := by
  rw [sameKeys_def] at h1 h2 ⊢
  exact ⟨h1.1.trans h2.1, fun k hk => h2.2 k (h1.2 k hk)⟩

theorem sameKeys_symm {K : Type} [DecidableEq K] (a b : List K) (ha : a.Nodup) (hb : b.Nodup)
    (h : sameKeys a b = true) : sameKeys b a = true := by
  rw [sameKeys_def] at h ⊢
  obtain ⟨hlen, hsub⟩ := h
  refine ⟨hlen.symm, ?_⟩
  have hsubf : a.toFinset ⊆ b.toFinset := by
    intro x hx
    rw [List.mem_toFinset] at hx ⊢
    exact hsub x hx
  have hcard : b.toFinset.card ≤ a.toFinset.card := by
    rw [List.toFinset_card_of_nodup ha, List.toFinset_card_of_nodup hb]
    exact hlen.ge
  have he : a.toFinset = b.toFinset := Finset.eq_of_subset_of_card_le hsubf hcard
  intro k hk
  rw [← List.mem_toFinset, ← he, List.mem_toFinset] at hk
  exact hk

theorem fromFoldableScan_nodup {K : Type} [DecidableEq K]
    (colls : List (List (K × Val))) (old : List (K × Nat)) (store : CellStore)
    (h : ∀ l ∈ colls, (l.map Prod.fst).Nodup) :
    ∀ s ∈ (fromFoldableScan old store colls).1, (s.map Prod.fst).Nodup := by
  intro s hs
  have hmem : s.map Prod.fst
      ∈ (fromFoldableScan old store colls).1.map (fun s => s.map Prod.fst) :=
    List.mem_map_of_mem _ hs
  rw [fromFoldableScan_keys] at hmem
  obtain ⟨c, hc, he⟩ := List.mem_map.mp hmem
  rw [← he]
  exact h c hc

/-- C3: the outer stream of `fromFoldable` emits only on key-set changes.
A consecutive snapshot that is reference-equal (same object identity) to
the prior one is discarded before any diffing; appending a snapshot whose
key set equals the previous snapshot's key set (values ignored) leaves the
outer emission trace unchanged, while a changed key set appends exactly one
outer emission (whose keys are the new snapshot's); and in the concrete
two-emission run where keys x, y persist and only x's value changes,
the outer stream emits exactly once while x's per-key cell carries two
values. -/
theorem rx_map_outer_gating :
    (∀ (K : Type) (inst : DecidableEq K) (pre : List (Nat × List (K × Val)))
        (a b : Nat × List (K × Val)) (post : List (Nat × List (K × Val))), a.1 = b.1 →
        fromFoldable (pre ++ a :: b :: post) = fromFoldable (pre ++ a :: post)) ∧
    (∀ (K : Type) (inst : DecidableEq K) (colls : List (List (K × Val)))
        (c : List (K × Val)) (hne : colls ≠ []),
        (∀ l ∈ colls ++ [c], (l.map Prod.fst).Nodup) →
        (sameKeys ((colls.getLast hne).map Prod.fst) (c.map Prod.fst) = true →
            rxMapOuter (colls ++ [c]) = rxMapOuter colls) ∧
        (sameKeys ((colls.getLast hne).map Prod.fst) (c.map Prod.fst) = false →
            ∃ m, rxMapOuter (colls ++ [c]) = rxMapOuter colls ++ [m] ∧
              m.map Prod.fst = c.map Prod.fst)) ∧
    ((fromFoldable [(0, [("x", Val.base 1), ("y", Val.base 10)]),
                    (1, [("x", Val.base 2), ("y", Val.base 10)])]).1
        = [[("x", 0), ("y", 1)]] ∧
      (fromFoldable [(0, [("x", Val.base 1), ("y", Val.base 10)]),
                     (1, [("x", Val.base 2), ("y", Val.base 10)])]).2.hist 0
        = [Val.base 1, Val.base 2]) := by
  refine ⟨?_, ?_, by decide, by decide⟩
  · intro K inst pre a b post hab
    simp only [fromFoldable]
    rw [distinctUntilChanged_dup (fun x y => x.1 == y.1)
          (fun x y z hxy hyz => by
            simp only [beq_iff_eq] at hxy hyz ⊢
            exact hxy.trans hyz)
          a b (by simp [hab]) pre post]
  · intro K inst colls c hne hnd
    have hndc : ∀ l ∈ colls, (l.map Prod.fst).Nodup :=
      fun l hl => hnd l (List.mem_append_left _ hl)
    have hndx : (c.map Prod.fst).Nodup := hnd c (List.mem_append_right _ (List.mem_singleton.mpr rfl))
    have hkeys := fromFoldableScan_keys colls ([] : List (K × Nat)) CellStore.empty
    have hTlen : (fromFoldableScan ([] : List (K × Nat)) CellStore.empty colls).1.length
        = colls.length := by
      have := congrArg List.length hkeys
      simpa using this
    set T := (fromFoldableScan ([] : List (K × Nat)) CellStore.empty colls).1 with hT
    set st := (fromFoldableScan ([] : List (K × Nat)) CellStore.empty colls).2 with hst
    have hTne : T ≠ [] := by
      intro h0
      rw [h0] at hTlen
      exact hne (List.length_eq_zero.mp hTlen.symm)
    set s2 := (fromFoldableStep ((T.getLast?).getD ([] : List (K × Nat))) st c).1 with hs2
    have houter : rxMapOuter (colls ++ [c]) = distinctUntilChanged getEqByValueKeys (T ++ [s2]) := by
      rw [rxMapOuter, fromFoldableScan_snoc colls ([] : List (K × Nat)) CellStore.empty c]
    have hs2keys : s2.map Prod.fst = c.map Prod.fst := by
      rw [hs2, fromFoldableStep_fst]
    have hTlast : T.getLast? = some (T.getLast hTne) := List.getLast?_eq_getLast T hTne
    have hClast : colls.getLast? = some (colls.getLast hne) := List.getLast?_eq_getLast colls hne
    have hlastkeys : (T.getLast hTne).map Prod.fst = (colls.getLast hne).map Prod.fst := by
      have h2 : (T.map fun s => s.map Prod.fst).getLast?
          = (colls.map fun l => l.map Prod.fst).getLast? := by rw [hkeys]
      rw [getLast?_map_eq, getLast?_map_eq, hTlast, hClast] at h2
      simpa using h2
    obtain ⟨h1, t1, hT1⟩ := List.exists_cons_of_ne_nil hTne
    have hPT : ∀ y ∈ T, (y.map Prod.fst).Nodup :=
      fromFoldableScan_nodup colls ([] : List (K × Nat)) CellStore.empty hndc
    have hPs2 : (s2.map Prod.fst).Nodup := by rw [hs2keys]; exact hndx
    have happ : distinctUntilChanged getEqByValueKeys (T ++ [s2])
        = distinctUntilChanged getEqByValueKeys T
          ++ (if getEqByValueKeys ((T.getLast?).getD h1) s2 then [] else [s2]) := by
      rw [hT1]
      exact distinctUntilChanged_append_last getEqByValueKeys
        (fun s => (s.map Prod.fst).Nodup)
        (fun x y hx hy hxy => sameKeys_symm _ _ hx hy hxy)
        (fun x y z hx hy hz hxy hyz => sameKeys_trans _ _ _ hxy hyz)
        h1 t1 s2 (hPT h1 (hT1 ▸ List.mem_cons_self h1 t1))
        (fun y hy => hPT y (hT1 ▸ List.mem_cons_of_mem h1 hy)) hPs2
    have hgate : getEqByValueKeys ((T.getLast?).getD h1) s2
        = sameKeys ((colls.getLast hne).map Prod.fst) (c.map Prod.fst) := by
      rw [hTlast]
      show sameKeys ((T.getLast hTne).map Prod.fst) (s2.map Prod.fst) = _
      rw [hlastkeys, hs2keys]
    constructor
    · intro hsame
      rw [houter, happ, hgate, hsame]
      simp [rxMapOuter]
    · intro hdiff
      refine ⟨s2, ?_, hs2keys⟩
      rw [houter, happ, hgate, hdiff]
      simp [rxMapOuter]

/-- Witness for C3: reference-duplicate discarding and key-set suppression
at concrete snapshots. -/
theorem rx_map_outer_gating_witness :
    (fromFoldable [((0 : Nat), [("x", Val.base 1)]), (0, [("x", Val.base 5)])]
        = fromFoldable [((0 : Nat), [("x", Val.base 1)])]) ∧
    rxMapOuter ([[("x", Val.base 1)]] ++ [[("x", Val.base 2)]])
      = rxMapOuter [[("x", Val.base 1)]] :=
  ⟨rx_map_outer_gating.1 String inferInstance [] (0, [("x", Val.base 1)])
      (0, [("x", Val.base 5)]) [] rfl,
   (rx_map_outer_gating.2.1 String inferInstance [[("x", Val.base 1)]] [("x", Val.base 2)]
      (by decide) (by decide)).1 (by decide)⟩

theorem fromFoldable_foldl_acc {K : Type} [DecidableEq K] (old : List (K × Nat)) :
    ∀ (l : List (K × Val)) (res : List (K × Nat)) (store : CellStore),
      l.foldl (fromFoldableEntry old) (res, store)
        = (res ++ (l.foldl (fromFoldableEntry old) ([], store)).1,
           (l.foldl (fromFoldableEntry old) ([], store)).2)
  | [], res, store => by simp
  | kv :: rest, res, store => by
    rw [List.foldl_cons, List.foldl_cons]
    cases hl : lookupKey old kv.1 with
    | some c =>
      rw [show fromFoldableEntry old (res, store) kv = (res ++ [(kv.1, c)], store.push c kv.2)
            from by simp [fromFoldableEntry, hl],
          show fromFoldableEntry old (([] : List (K × Nat)), store) kv
              = ([(kv.1, c)], store.push c kv.2)
            from by simp [fromFoldableEntry, hl]]
      rw [fromFoldable_foldl_acc old rest (res ++ [(kv.1, c)]) (store.push c kv.2),
          fromFoldable_foldl_acc old rest [(kv.1, c)] (store.push c kv.2)]
      simp
    | none =>
      rw [show fromFoldableEntry old (res, store) kv
            = (res ++ [(kv.1, store.fresh)], store.newCell kv.2)
            from by simp [fromFoldableEntry, hl],
          show fromFoldableEntry old (([] : List (K × Nat)), store) kv
              = ([(kv.1, store.fresh)], store.newCell kv.2)
            from by simp [fromFoldableEntry, hl]]
      rw [fromFoldable_foldl_acc old rest (res ++ [(kv.1, store.fresh)]) (store.newCell kv.2),
          fromFoldable_foldl_acc old rest [(kv.1, store.fresh)] (store.newCell kv.2)]
      simp

theorem fromFoldable_foldl_fresh {K : Type} [DecidableEq K] (old : List (K × Nat)) :
    ∀ (l : List (K × Val)) (res : List (K × Nat)) (store : CellStore),
      store.fresh ≤ (l.foldl (fromFoldableEntry old) (res, store)).2.fresh
  | [], _, _ => Nat.le_refl _
  | kv :: rest, res, store => by
    rw [List.foldl_cons]
    cases hl : lookupKey old kv.1 with
    | some c =>
      rw [show fromFoldableEntry old (res, store) kv = (res ++ [(kv.1, c)], store.push c kv.2)
            from by simp [fromFoldableEntry, hl]]
      exact fromFoldable_foldl_fresh old rest (res ++ [(kv.1, c)]) (store.push c kv.2)
    | none =>
      rw [show fromFoldableEntry old (res, store) kv
            = (res ++ [(kv.1, store.fresh)], store.newCell kv.2)
            from by simp [fromFoldableEntry, hl]]
      exact Nat.le_trans (Nat.le_succ _)
        (fromFoldable_foldl_fresh old rest (res ++ [(kv.1, store.fresh)]) (store.newCell kv.2))

theorem fromFoldable_foldl_hist {K : Type} [DecidableEq K] (old : List (K × Nat)) :
    ∀ (l : List (K × Val)) (res : List (K × Nat)) (store : CellStore) (c : Nat),
      c < store.fresh →
      (∀ p ∈ l, ∀ c2, lookupKey old p.1 = some c2 → c2 ≠ c) →
      (l.foldl (fromFoldableEntry old) (res, store)).2.hist c = store.hist c
  | [], _, _, _, _, _ => rfl
  | kv :: rest, res, store, c, hc, hl => by
    rw [List.foldl_cons]
    cases hlk : lookupKey old kv.1 with
    | some c2 =>
      have hne : c2 ≠ c := hl kv (List.mem_cons_self _ _) c2 hlk
      rw [show fromFoldableEntry old (res, store) kv = (res ++ [(kv.1, c2)], store.push c2 kv.2)
            from by simp [fromFoldableEntry, hlk]]
      rw [fromFoldable_foldl_hist old rest (res ++ [(kv.1, c2)]) (store.push c2 kv.2) c hc
            (fun p hp => hl p (List.mem_cons_of_mem _ hp))]
      show Function.update store.hist c2 (store.hist c2 ++ [kv.2]) c = store.hist c
      rw [Function.update_noteq (Ne.symm hne)]
    | none =>
      rw [show fromFoldableEntry old (res, store) kv
            = (res ++ [(kv.1, store.fresh)], store.newCell kv.2)
            from by simp [fromFoldableEntry, hlk]]
      rw [fromFoldable_foldl_hist old rest (res ++ [(kv.1, store.fresh)]) (store.newCell kv.2) c
            (Nat.lt_succ_of_lt hc) (fun p hp => hl p (List.mem_cons_of_mem _ hp))]
      show Function.update store.hist store.fresh [kv.2] c = store.hist c
      rw [Function.update_noteq (Nat.ne_of_lt hc)]

/-- C9: each per-key cell of `fromFoldable`'s scan replays its latest
value.  One scan step, for any key `k` carried by the incoming collection:
if the key persisted, the very same cell is kept (subscriber continuity)
and the new value is pushed into its history; if the key is new, a fresh
cell is allocated seeded with the current value; in both cases the cell's
history ends with the key's current value — a `BehaviorSubject` subscriber
arriving at any time immediately receives that most recent value before
subsequent updates.  The well-formedness hypotheses (allocated cell ids lie
below `fresh`, distinct keys hold distinct cells) hold for every state the
scan reaches from the empty seed. -/
theorem rx_map_cell_replay :
    ∀ (K : Type) (inst : DecidableEq K) (old : List (K × Nat)) (store : CellStore)
      (coll : List (K × Val)) (k : K) (v : Val),
      (∀ p ∈ old, p.2 < store.fresh) →
      (∀ p ∈ old, ∀ q ∈ old, p.2 = q.2 → p.1 = q.1) →
      (coll.map Prod.fst).Nodup →
      (k, v) ∈ coll →
      ∃ c, lookupKey (fromFoldableStep old store coll).1 k = some c ∧
        (∀ c0, lookupKey old k = some c0 →
            c = c0 ∧ (fromFoldableStep old store coll).2.hist c = store.hist c ++ [v]) ∧
        (lookupKey old k = none →
            store.fresh ≤ c ∧ (fromFoldableStep old store coll).2.hist c = [v]) ∧
        ((fromFoldableStep old store coll).2.hist c).getLast? = some v := by
  intro K inst old store coll k v hwf1 hwf2 hnd hin
  obtain ⟨l1, l2, rfl⟩ := List.append_of_mem hin
  have hnd2 : (l1.map Prod.fst ++ k :: l2.map Prod.fst).Nodup := by simpa using hnd
  have hmid : (k :: (l1.map Prod.fst ++ l2.map Prod.fst)).Nodup := List.nodup_middle.mp hnd2
  have hknotin : k ∉ l1.map Prod.fst ++ l2.map Prod.fst := (List.nodup_cons.mp hmid).1
  have hk1 : k ∉ l1.map Prod.fst := fun h => hknotin (List.mem_append_left _ h)
  have hk2 : k ∉ l2.map Prod.fst := fun h => hknotin (List.mem_append_right _ h)
  have hstep : fromFoldableStep old store (l1 ++ (k, v) :: l2)
      = List.foldl (fromFoldableEntry old)
          (fromFoldableEntry old (List.foldl (fromFoldableEntry old) ([], store) l1) (k, v)) l2 := by
    rw [fromFoldableStep, List.foldl_append, List.foldl_cons]
  set A := List.foldl (fromFoldableEntry old) (([] : List (K × Nat)), store) l1 with hA
  have hAkeys : A.1.map Prod.fst = l1.map Prod.fst := by
    rw [hA, fromFoldableEntry_fst old l1 [] store]
    rfl
  have hAfresh : store.fresh ≤ A.2.fresh := fromFoldable_foldl_fresh old l1 [] store
  cases hcase : lookupKey old k with
  | some c0 =>
    have hc0mem := lookupKey_mem old k c0 hcase
    have hc0lt : c0 < store.fresh := hwf1 (k, c0) hc0mem
    have hentry : fromFoldableEntry old A (k, v) = (A.1 ++ [(k, c0)], A.2.push c0 v) := by
      simp [fromFoldableEntry, hcase]
    have hframe1 : ∀ (p : K × Val), p ∈ l1 → ∀ c2, lookupKey old p.1 = some c2 → c2 ≠ c0 := by
      intro p hp c2 hl he
      apply hk1
      have hpk : p.1 = k :=
        hwf2 (p.1, c2) (lookupKey_mem old p.1 c2 hl) (k, c0) hc0mem (by rw [he])
      rw [← hpk]
      exact List.mem_map_of_mem Prod.fst hp
    have hframe2 : ∀ (p : K × Val), p ∈ l2 → ∀ c2, lookupKey old p.1 = some c2 → c2 ≠ c0 := by
      intro p hp c2 hl he
      apply hk2
      have hpk : p.1 = k :=
        hwf2 (p.1, c2) (lookupKey_mem old p.1 c2 hl) (k, c0) hc0mem (by rw [he])
      rw [← hpk]
      exact List.mem_map_of_mem Prod.fst hp
    have hAhist : A.2.hist c0 = store.hist c0 := by
      rw [hA]
      exact fromFoldable_foldl_hist old l1 [] store c0 hc0lt hframe1
    have hfinal : fromFoldableStep old store (l1 ++ (k, v) :: l2)
        = ((A.1 ++ [(k, c0)]) ++ (l2.foldl (fromFoldableEntry old) ([], A.2.push c0 v)).1,
           (l2.foldl (fromFoldableEntry old) ([], A.2.push c0 v)).2) := by
      rw [hstep, hentry, fromFoldable_foldl_acc old l2 (A.1 ++ [(k, c0)]) (A.2.push c0 v)]
    have hhist : (fromFoldableStep old store (l1 ++ (k, v) :: l2)).2.hist c0
        = store.hist c0 ++ [v] := by
      rw [hfinal]
      show (l2.foldl (fromFoldableEntry old) ([], A.2.push c0 v)).2.hist c0 = _
      rw [fromFoldable_foldl_hist old l2 [] (A.2.push c0 v) c0
            (Nat.lt_of_lt_of_le hc0lt hAfresh) hframe2]
      show Function.update A.2.hist c0 (A.2.hist c0 ++ [v]) c0 = store.hist c0 ++ [v]
      rw [Function.update_same, hAhist]
    refine ⟨c0, ?_, ?_, ?_, ?_⟩
    · rw [hfinal]
      show lookupKey ((A.1 ++ [(k, c0)])
          ++ (l2.foldl (fromFoldableEntry old) ([], A.2.push c0 v)).1) k = some c0
      rw [List.append_assoc, List.singleton_append,
          lookupKey_append_left A.1 _ k (by rw [hAkeys]; exact hk1)]
      simp [lookupKey]
    · intro c0' hc0'
      obtain rfl : c0 = c0' := Option.some.inj hc0'
      exact ⟨rfl, hhist⟩
    · intro hnone
      exact Option.noConfusion hnone
    · rw [hhist]
      exact List.getLast?_concat _
  | none =>
    have hentry : fromFoldableEntry old A (k, v) = (A.1 ++ [(k, A.2.fresh)], A.2.newCell v) := by
      simp [fromFoldableEntry, hcase]
    have hframe2 : ∀ (p : K × Val), p ∈ l2 → ∀ c2, lookupKey old p.1 = some c2 → c2 ≠ A.2.fresh := by
      intro p hp c2 hl he
      have hlt : c2 < store.fresh := hwf1 (p.1, c2) (lookupKey_mem old p.1 c2 hl)
      rw [he] at hlt
      exact absurd hAfresh (Nat.not_le_of_lt hlt)
    have hfinal : fromFoldableStep old store (l1 ++ (k, v) :: l2)
        = ((A.1 ++ [(k, A.2.fresh)]) ++ (l2.foldl (fromFoldableEntry old) ([], A.2.newCell v)).1,
           (l2.foldl (fromFoldableEntry old) ([], A.2.newCell v)).2) := by
      rw [hstep, hentry, fromFoldable_foldl_acc old l2 (A.1 ++ [(k, A.2.fresh)]) (A.2.newCell v)]
    have hhist : (fromFoldableStep old store (l1 ++ (k, v) :: l2)).2.hist A.2.fresh = [v] := by
      rw [hfinal]
      show (l2.foldl (fromFoldableEntry old) ([], A.2.newCell v)).2.hist A.2.fresh = _
      rw [fromFoldable_foldl_hist old l2 [] (A.2.newCell v) A.2.fresh
            (Nat.lt_succ_self _) hframe2]
      show Function.update A.2.hist A.2.fresh [v] A.2.fresh = [v]
      rw [Function.update_same]
    refine ⟨A.2.fresh, ?_, ?_, ?_, ?_⟩
    · rw [hfinal]
      show lookupKey ((A.1 ++ [(k, A.2.fresh)])
          ++ (l2.foldl (fromFoldableEntry old) ([], A.2.newCell v)).1) k = some A.2.fresh
      rw [List.append_assoc, List.singleton_append,
          lookupKey_append_left A.1 _ k (by rw [hAkeys]; exact hk1)]
      simp [lookupKey]
    · intro c0' hc0'
      exact Option.noConfusion hc0'
    · intro _
      exact ⟨hAfresh, hhist⟩
    · rw [hhist]
      rfl

/-- Witness for C9: one scan step over a snapshot where key `x` persists
(with a new value) and key `y` appears, against a store holding `x`'s
seeded cell. -/
theorem rx_map_cell_replay_witness :
    ∃ c, lookupKey (fromFoldableStep [("x", 0)] (CellStore.empty.newCell (Val.base 1))
            [("x", Val.base 2), ("y", Val.base 3)]).1 "x" = some c ∧
      (∀ c0, lookupKey [("x", 0)] "x" = some c0 →
          c = c0 ∧ (fromFoldableStep [("x", 0)] (CellStore.empty.newCell (Val.base 1))
              [("x", Val.base 2), ("y", Val.base 3)]).2.hist c
            = (CellStore.empty.newCell (Val.base 1)).hist c ++ [Val.base 2]) ∧
      (lookupKey [("x", 0)] "x" = none →
          (CellStore.empty.newCell (Val.base 1)).fresh ≤ c ∧
          (fromFoldableStep [("x", 0)] (CellStore.empty.newCell (Val.base 1))
              [("x", Val.base 2), ("y", Val.base 3)]).2.hist c = [Val.base 2]) ∧
      ((fromFoldableStep [("x", 0)] (CellStore.empty.newCell (Val.base 1))
          [("x", Val.base 2), ("y", Val.base 3)]).2.hist c).getLast? = some (Val.base 2) :=
  rx_map_cell_replay String inferInstance [("x", 0)] (CellStore.empty.newCell (Val.base 1))
    [("x", Val.base 2), ("y", Val.base 3)] "x" (Val.base 2)
    (by decide) (by decide) (by decide) (by decide)
